import Mathlib

/-!
Shallow embedding of the conditional character-level RNN notebook
(`conditional_rnn/conditional-char-rnn.ipynb`).

Machine floats are modelled by exact rationals; the framework's stochastic
primitives (dropout masks, multinomial draws) are passed in as explicit
streams, and the transcendental `LogSoftmax` / `exp` primitives are carried
as abstract components of the module, constrained by the shift property that
characterises log-softmax.
-/

/-- `string.ascii_letters` : lowercase then uppercase ASCII letters. -/
def asciiLetters : List Char :=
  "abcdefghijklmnopqrstuvwxyzABCDEFGHIJKLMNOPQRSTUVWXYZ".data

/-- `all_letters = string.ascii_letters + " .,;'-"` (the apostrophe is
`Char.ofNat 39`, the hyphen `Char.ofNat 45`). -/
def all_letters : List Char :=
  asciiLetters ++ [' ', '.', ',', ';', Char.ofNat 39, Char.ofNat 45]

/-- `n_letters = len(all_letters) + 1` (the extra slot is the EOS marker). -/
def n_letters : Nat := all_letters.length + 1

/-- Python `str.find`: index of the first occurrence, `-1` when absent. -/
def strFind (s : List Char) (c : Char) : Int :=
  if c ∈ s then (s.indexOf c : Int) else -1

/-- Python indexed assignment `v[i] = x` on a list: a nonnegative index must
be `< len`, a negative index `i` means `len + i`; anything else raises
`IndexError` (modelled by `none`). -/
def setAtPy (v : List ℚ) (i : Int) (x : ℚ) : Option (List ℚ) :=
  if 0 ≤ i ∧ i < (v.length : Int) then
    some (v.set i.toNat x)
  else if -(v.length : Int) ≤ i ∧ i < 0 then
    some (v.set ((v.length : Int) + i).toNat x)
  else
    none

/-- `categoryTensor(category)`: `li = all_categories.index(category)` (raises
`ValueError` when absent, modelled by `none`), then a `1 × n_categories` zero
tensor with `tensor[0][li] = 1`. The batch dimension is dropped. -/
def categoryTensor (cats : List String) (c : String) : Option (List ℚ) :=
  if c ∈ cats then
    setAtPy (List.replicate cats.length 0) (cats.indexOf c : Int) 1
  else
    none

/-- `inputTensor(line)`: a `len(line) × 1 × n_letters` zero tensor where row
`li` gets `tensor[li][0][all_letters.find(line[li])] = 1`. The batch
dimension is dropped; the Python index assignment may in principle raise. -/
def inputTensor (line : String) : Option (List (List ℚ)) :=
  line.data.mapM (fun ch =>
    setAtPy (List.replicate n_letters 0) (strFind all_letters ch) 1)

/-- `targetTensor(line)`: `all_letters.find(line[li])` for `li` in
`1..len(line)-1`, with `n_letters - 1` (EOS) appended. -/
def targetTensor (line : String) : List Int :=
  (line.data.drop 1).map (strFind all_letters) ++ [(n_letters : Int) - 1]

/-- A one-hot row of length `n` with the bit at `i`. -/
def oneHotQ (n i : Nat) : List ℚ := (List.replicate n (0 : ℚ)).set i 1

/-- The index at which `inputTensor` actually writes the one-hot bit for a
character: its alphabet position when it is in the alphabet, and the final
slot `n_letters - 1` (via Python negative indexing of `find`'s `-1`)
otherwise. -/
def pyIdx (ch : Char) : Nat :=
  if ch ∈ all_letters then all_letters.indexOf ch else n_letters - 1

/-- The rows `inputTensor` produces, as total functions. -/
def inputRows (line : String) : List (List ℚ) :=
  line.data.map (fun ch => oneHotQ n_letters (pyIdx ch))

-- basic facts about the alphabet and the encoders

theorem all_letters_length : all_letters.length = 58 := by decide

theorem strFind_of_not_mem {ch : Char} (h : ch ∉ all_letters) :
    strFind all_letters ch = -1 := by
  simp [strFind, h]

/-- One row of `inputTensor` always succeeds and is the one-hot row at
`pyIdx ch`: in-alphabet characters land at their alphabet position,
foreign characters land at the EOS slot through negative indexing. -/
theorem setAtPy_row (ch : Char) :
    setAtPy (List.replicate n_letters 0) (strFind all_letters ch) 1 =
      some (oneHotQ n_letters (pyIdx ch)) := by
  by_cases h : ch ∈ all_letters
  · have hidx : all_letters.indexOf ch < all_letters.length :=
      List.indexOf_lt_length.mpr h
    have hlt : (all_letters.indexOf ch : Int) < (n_letters : Int) := by
      have : all_letters.indexOf ch < n_letters := Nat.lt_succ_of_lt hidx
      exact_mod_cast this
    simp only [setAtPy, strFind, if_pos h, oneHotQ, pyIdx,
      List.length_replicate]
    rw [if_pos ⟨Int.ofNat_nonneg _, hlt⟩]
    simp
  · have hn : n_letters = 59 := by decide
    simp only [setAtPy, strFind_of_not_mem h, oneHotQ, pyIdx, if_neg h,
      List.length_replicate, hn]
    norm_num
    rfl

theorem inputTensor_eq (line : String) :
    inputTensor line = some (inputRows line) := by
  show line.data.mapM _ = some (line.data.map _)
  induction line.data with
  | nil => rfl
  | cons c cs ih =>
    rw [List.mapM_cons, setAtPy_row, ih]
    rfl

/-!
## The recurrent module

Mirrors `RNN.__init__` / `RNN.forward`. An `nn.Linear` is a matrix (list of
rows) together with a bias; `self.dropout` is kept as the probability `p`
plus the module's training flag and an explicit Bernoulli mask stream;
`self.softmax` (an `nn.LogSoftmax` instance) is carried as a function
component, constrained where needed by `SoftmaxOK` below.
-/

structure RNNmod where
  catSize : Nat
  inputSize : Nat
  hiddenSize : Nat
  outputSize : Nat
  i2h : List (List ℚ) × List ℚ
  i2o : List (List ℚ) × List ℚ
  o2o : List (List ℚ) × List ℚ
  p : ℚ
  softmax : List ℚ → List ℚ

/-- `nn.Linear`: `W·v + b`, with `W` a list of rows. -/
def affine (layer : List (List ℚ) × List ℚ) (v : List ℚ) : List ℚ :=
  List.zipWith (· + ·) (layer.1.map (fun r => (List.zipWith (· * ·) r v).sum))
    layer.2

/-- Coordinate-wise body of `nn.Dropout` in training mode: coordinate `i`
is zeroed where the Bernoulli mask fires and scaled by `1/(1-p)`
otherwise. -/
def dropoutGo (p : ℚ) (mask : Nat → Bool) : Nat → List ℚ → List ℚ
  | _, [] => []
  | i, x :: xs =>
    (if mask i then 0 else x / (1 - p)) :: dropoutGo p mask (i + 1) xs

/-- `nn.Dropout(p)`: in training mode each coordinate is zeroed where the
Bernoulli mask fires and scaled by `1/(1-p)` otherwise; in eval mode it is
the identity. -/
def dropoutF (p : ℚ) (training : Bool) (mask : Nat → Bool) (v : List ℚ) :
    List ℚ :=
  if training then dropoutGo p mask 0 v else v

/-- The notebook constructs `rnn = RNN(...)` (an `nn.Module` starts in
training mode) and never calls `rnn.eval()` or `rnn.train(False)`, so the
module's training flag is `true` for every `forward` invocation, in the
training loop and in the sampler alike. -/
def rnnTrainingMode : Bool := true

/-- `RNN.forward`, line for line: concatenate `(cat, input, hidden)`, apply
`i2h` and `i2o` to it, concatenate their results, apply `o2o`, dropout and
log-softmax; return `(output, hidden)`. -/
def forward (M : RNNmod) (training : Bool) (mask : Nat → Bool)
    (cat input hidden : List ℚ) : List ℚ × List ℚ :=
  let input_combined := cat ++ input ++ hidden
  let hidden2 := affine M.i2h input_combined
  let output1 := affine M.i2o input_combined
  let output_combined := output1 ++ hidden2
  let output2 := affine M.o2o output_combined
  let output3 := dropoutF M.p training mask output2
  let output4 := M.softmax output3
  (output4, hidden2)

/-- `RNN.init_hidden`: a zero vector of the hidden size. -/
def initHidden (M : RNNmod) : List ℚ := List.replicate M.hiddenSize 0

/-- `nn.NLLLoss()(output, target)` for a batch of one: `-output[target]`;
a target outside `[0, len)` raises (modelled by `none`). -/
def nllLoss (out : List ℚ) (t : Int) : Option ℚ :=
  if h : 0 ≤ t ∧ t.toNat < out.length then
    some (-(out.get ⟨t.toNat, h.2⟩))
  else
    none

/-- `nn.LogSoftmax` subtracts the (log-sum-exp) normaliser from every
coordinate: the map is a uniform shift of the input vector. This is the one
property of the transcendental primitive the development relies on. -/
def SoftmaxOK (f : List ℚ → List ℚ) : Prop :=
  ∀ v : List ℚ, ∃ c : ℚ, f v = v.map (fun x => x - c)

/-- The shapes fixed by `rnn = RNN(n_categories, n_letters, 128, n_letters)`
that the claims depend on: the `o2o` layer produces `n_letters` outputs. -/
def WellShaped (M : RNNmod) : Prop :=
  M.o2o.1.length = n_letters ∧ M.o2o.2.length = n_letters

/-!
## The training step

`train` unrolls the cell over `range(target_t.size()[0])`, reading
`input_t[i]` and `target_t[i]` by index, accumulates
`criterion(output, target_t[i])` and reports `loss / target_t.size()[0]`.
The gradient update does not change the reported value and is not modelled.
-/

/-- The accumulation loop of `train`: position counter `k` indexes the
input rows (`input_t[i]`, an `IndexError` when out of range is `none`),
the target entries drive the iteration. -/
def unroll (M : RNNmod) (masks : Nat → Nat → Bool) (cat : List ℚ)
    (inp : List (List ℚ)) : Nat → List ℚ → List Int → Option ℚ
  | _, _, [] => some 0
  | k, hid, t :: ts =>
    match inp.get? k with
    | none => none
    | some x =>
      let r := forward M rnnTrainingMode (masks k) cat x hid
      match nllLoss r.1 t with
      | none => none
      | some l => (unroll M masks cat inp (k + 1) r.2 ts).map (fun s => l + s)

/-- One `train(*random_training_example())` step for a given `(category,
line)` pair: encode, unroll from a zero hidden state, report the summed
loss divided by the number of target entries. -/
def trainOnExample (cats : List String) (M : RNNmod)
    (masks : Nat → Nat → Bool) (category line : String) : Option ℚ :=
  match categoryTensor cats category with
  | none => none
  | some cv =>
    match inputTensor line with
    | none => none
    | some inp =>
      let tgt := targetTensor line
      (unroll M masks cv inp 0 (initHidden M) tgt).map
        (fun s => s / (tgt.length : ℚ))

/-- Spec-side view of the unroll: the sequence of log-probability outputs
the cell produces along the input rows. -/
def cellOutputs (M : RNNmod) (masks : Nat → Nat → Bool) (cat : List ℚ) :
    Nat → List ℚ → List (List ℚ) → List (List ℚ)
  | _, _, [] => []
  | k, hid, x :: xs =>
    let r := forward M rnnTrainingMode (masks k) cat x hid
    r.1 :: cellOutputs M masks cat (k + 1) r.2 xs

/-- Spec-side loss: the sum over all positions of the negative
log-likelihood between the cell's output at that position and the target
index at that position. -/
def lossSpec (M : RNNmod) (masks : Nat → Nat → Bool) (cv : List ℚ)
    (line : String) : ℚ :=
  (List.zipWith (fun o (t : Int) => -(o.getD t.toNat 0))
    (cellOutputs M masks cv 0 (initHidden M) (inputRows line))
    (targetTensor line)).sum

/-!
## The sampler
-/

/-- `max_length = 20`. -/
def max_length : Nat := 20

/-- The body of `sample`'s decoding loop. Each iteration feeds `input[0]`
to the cell, exponentiates the log-probabilities, draws an index from the
resulting distribution (`draws` stands for `torch.multinomial`), stops when
the drawn index is the EOS index `n_letters - 1`, otherwise appends
`all_letters[topi]` and re-encodes it as the next input. -/
def sampleLoop (M : RNNmod) (masks : Nat → Nat → Bool) (expF : ℚ → ℚ)
    (draws : Nat → List ℚ → Nat) (cv : List ℚ) :
    Nat → Nat → List (List ℚ) → List ℚ → List Char → Option (List Char)
  | 0, _, _, _, acc => some acc
  | fuel + 1, k, cur, hid, acc =>
    match cur.get? 0 with
    | none => none
    | some row =>
      let r := forward M rnnTrainingMode (masks k) cv row hid
      let dist := r.1.map expF
      let topi := draws k dist
      if topi = n_letters - 1 then some acc
      else
        match all_letters.get? topi with
        | none => none
        | some letter =>
          match inputTensor (String.mk [letter]) with
          | none => none
          | some m =>
            sampleLoop M masks expF draws cv fuel (k + 1) m r.2
              (acc ++ [letter])

/-- `sample(category, start_letter)`: encode the category and the seed
letter, start from a zero hidden state and a buffer holding the seed, and
run the decoding loop for at most `max_length` iterations. -/
def sample (cats : List String) (M : RNNmod) (masks : Nat → Nat → Bool)
    (expF : ℚ → ℚ) (draws : Nat → List ℚ → Nat) (category : String)
    (start : Char) : Option (List Char) :=
  match categoryTensor cats category with
  | none => none
  | some cv =>
    match inputTensor (String.mk [start]) with
    | none => none
    | some m =>
      sampleLoop M masks expF draws cv max_length 0 m (initHidden M) [start]

/-- First index of the maximum, accumulator form (`torch.topk(1)` on a
vector returns the index of its largest entry). -/
def argmaxAux : Nat → Nat → ℚ → List ℚ → Nat
  | _, bi, _, [] => bi
  | i, bi, bv, x :: xs =>
    if bv < x then argmaxAux (i + 1) i x xs else argmaxAux (i + 1) bi bv xs

/-- Index of the first maximal entry of a vector. -/
def argmaxIdx : List ℚ → Nat
  | [] => 0
  | x :: xs => argmaxAux 1 0 x xs

/-- The greedy variant of the decoding loop (the notebook's commented
`topv, topi = output.data.topk(1)`): the drawn index is replaced by the
index of the largest log-probability; everything else is unchanged. -/
def greedyLoop (M : RNNmod) (masks : Nat → Nat → Bool) (cv : List ℚ) :
    Nat → Nat → List (List ℚ) → List ℚ → List Char → Option (List Char)
  | 0, _, _, _, acc => some acc
  | fuel + 1, k, cur, hid, acc =>
    match cur.get? 0 with
    | none => none
    | some row =>
      let r := forward M rnnTrainingMode (masks k) cv row hid
      let topi := argmaxIdx r.1
      if topi = n_letters - 1 then some acc
      else
        match all_letters.get? topi with
        | none => none
        | some letter =>
          match inputTensor (String.mk [letter]) with
          | none => none
          | some m =>
            greedyLoop M masks cv fuel (k + 1) m r.2 (acc ++ [letter])

/-- `sample` with the greedy decode variant selected. -/
def greedySample (cats : List String) (M : RNNmod)
    (masks : Nat → Nat → Bool) (category : String) (start : Char) :
    Option (List Char) :=
  match categoryTensor cats category with
  | none => none
  | some cv =>
    match inputTensor (String.mk [start]) with
    | none => none
    | some m =>
      greedyLoop M masks cv max_length 0 m (initHidden M) [start]

/-!
## Shared lemmas
-/

theorem categoryTensor_of_mem {cats : List String} {c : String}
    (h : c ∈ cats) :
    categoryTensor cats c = some (oneHotQ cats.length (cats.indexOf c)) := by
  have hidx : cats.indexOf c < cats.length := List.indexOf_lt_length.mpr h
  simp only [categoryTensor, if_pos h, setAtPy, List.length_replicate]
  rw [if_pos ⟨Int.ofNat_nonneg _, by exact_mod_cast hidx⟩]
  simp [oneHotQ]

theorem oneHotQ_self {n i : Nat} (h : i < n) :
    (oneHotQ n i)[i]? = some 1 := by
  have hlen : i < (List.replicate n (0 : ℚ)).length := by simpa using h
  simp only [oneHotQ]
  exact List.getElem?_set_eq_of_lt 1 hlen

theorem oneHotQ_of_ne {n i j : Nat} (hj : j < n) (hne : i ≠ j) :
    (oneHotQ n i)[j]? = some 0 := by
  simp [oneHotQ, List.getElem?_set_ne hne, hj]

theorem targetTensor_length (line : String) :
    (targetTensor line).length = line.data.length - 1 + 1 := by
  simp [targetTensor]

/-- If some target entry is negative, the unrolled loss computation aborts
(`nn.NLLLoss` rejects negative class indices). -/
theorem unroll_none_of_neg_target (M : RNNmod) (masks : Nat → Nat → Bool)
    (cv : List ℚ) (inp : List (List ℚ)) :
    ∀ (ts : List Int) (k : Nat) (hid : List ℚ),
      (∃ t ∈ ts, t < 0) → unroll M masks cv inp k hid ts = none := by
  intro ts
  induction ts with
  | nil => intro k hid h; rcases h with ⟨t, ht, _⟩; cases ht
  | cons t0 ts ih =>
    intro k hid h
    rw [unroll]
    cases hk : inp.get? k with
    | none => rfl
    | some x =>
      rcases h with ⟨t, ht, htneg⟩
      rcases List.mem_cons.mp ht with rfl | htl
      · have hnll : ∀ out, nllLoss out t = none := by
          intro out
          rw [nllLoss, dif_neg]
          intro hcon
          exact absurd hcon.1 (not_le.mpr htneg)
        simp [hnll]
      · have hrec := ih (k + 1)
          (forward M rnnTrainingMode (masks k) cv x hid).2 ⟨t, htl, htneg⟩
        cases hnl : nllLoss (forward M rnnTrainingMode (masks k) cv x hid).1 t0 with
        | none => simp [hnl]
        | some l => simp [hnl, hrec]

/-- A small concrete module used by the witnesses: zero weights with an
`o2o` layer of `n_letters` outputs, `p = 0.1`, identity in place of the
log-softmax component. -/
def M0 : RNNmod :=
  { catSize := 1, inputSize := n_letters, hiddenSize := 1,
    outputSize := n_letters,
    i2h := ([], []), i2o := ([], []),
    o2o := (List.replicate n_letters [], List.replicate n_letters 0),
    p := 1 / 10, softmax := id }

theorem SoftmaxOK_id : SoftmaxOK id := by
  intro v
  exact ⟨0, by simp⟩

/-!
## C1 — target length vs input rows, final entry EOS

The claim as stated includes the empty string, where it fails: the target
sequence is `[EOS]` (one entry) while the input matrix has zero rows.
-/

/-- C1 counterexample: for the empty string the target sequence has one
entry (the EOS index) but the input matrix has zero rows. -/
theorem C1_counterexample :
    inputTensor "" = some [] ∧ targetTensor "" = [58] ∧
      (targetTensor "").length ≠ ([] : List (List ℚ)).length := by
  refine ⟨rfl, by decide, by decide⟩

/-- C1 (amended): for every nonempty string over the alphabet, the target
sequence produced by `targetTensor` has exactly as many entries as
`inputTensor` has rows, and its final entry is the EOS index
`n_letters - 1`. -/
theorem C1_target_matches_input (line : String) (hne : line ≠ "")
    (halpha : ∀ ch ∈ line.data, ch ∈ all_letters) :
    ∃ m, inputTensor line = some m ∧
      (targetTensor line).length = m.length ∧
      (targetTensor line).getLast? = some ((n_letters : Int) - 1) := by
  refine ⟨inputRows line, inputTensor_eq line, ?_, ?_⟩
  · have hd : line.data ≠ [] := by
      intro hcon
      apply hne
      cases line
      simp at hcon
      simp [hcon]
    have hpos : 0 < line.data.length := List.length_pos.mpr hd
    rw [targetTensor_length]
    have hm : (inputRows line).length = line.data.length := by
      simp [inputRows]
    rw [hm]
    omega
  · exact List.getLast?_concat _

/-- C1 witness at `"ab"`. -/
theorem C1_witness :
    ∃ m, inputTensor "ab" = some m ∧
      (targetTensor "ab").length = m.length ∧
      (targetTensor "ab").getLast? = some ((n_letters : Int) - 1) :=
  C1_target_matches_input "ab" (by decide) (by decide)

/-!
## C5 — category one-hot encoding
-/

/-- C5: for a category in the fixed ordered list, `categoryTensor` returns
a vector of length `|cats|` whose entry at the category's position is `1`
and whose other entries are `0`; for an unknown category it fails
(`list.index` raises `ValueError`). -/
theorem C5_categoryTensor (cats : List String) (c : String) :
    (c ∈ cats →
      categoryTensor cats c = some (oneHotQ cats.length (cats.indexOf c)) ∧
      (oneHotQ cats.length (cats.indexOf c)).length = cats.length ∧
      (oneHotQ cats.length (cats.indexOf c))[cats.indexOf c]? = some 1 ∧
      ∀ j, j < cats.length → j ≠ cats.indexOf c →
        (oneHotQ cats.length (cats.indexOf c))[j]? = some 0) ∧
    (c ∉ cats → categoryTensor cats c = none) := by
  constructor
  · intro h
    have hidx : cats.indexOf c < cats.length := List.indexOf_lt_length.mpr h
    refine ⟨categoryTensor_of_mem h, by simp [oneHotQ], oneHotQ_self hidx,
      fun j hj hne => oneHotQ_of_ne hj (Ne.symm hne)⟩
  · intro h
    simp [categoryTensor, h]

/-- C5 witness at a concrete two-category list. -/
theorem C5_witness :
    categoryTensor ["Russian", "German"] "German" =
      some (oneHotQ 2 1) ∧
    (oneHotQ 2 1)[1]? = some 1 ∧ (oneHotQ 2 1)[0]? = some 0 := by
  have h := (C5_categoryTensor ["Russian", "German"] "German").1 (by decide)
  refine ⟨?_, ?_, ?_⟩
  · simpa using h.1
  · simpa using h.2.2.1
  · have := h.2.2.2 0 (by decide) (by decide)
    simpa using this

/-!
## C9 — training on the empty string faults
-/

/-- C9: one training step on the empty string aborts: the target sequence
is `[EOS]`, so the loop runs one iteration and indexes `input_t[0]` into a
zero-row input tensor — an uncaught `IndexError`. No validation path
exists. -/
theorem C9_train_empty_faults (cats : List String) (M : RNNmod)
    (masks : Nat → Nat → Bool) (cat : String) (hc : cat ∈ cats) :
    trainOnExample cats M masks cat "" = none := by
  rw [trainOnExample, categoryTensor_of_mem hc, inputTensor_eq]
  show Option.map _ (unroll M masks _ [] 0 (initHidden M) (targetTensor "")) = none
  rw [show targetTensor "" = [58] from by decide]
  rw [unroll]
  rfl

/-- C9 witness at a concrete category list and module. -/
theorem C9_witness :
    trainOnExample ["X"] M0 (fun _ _ => false) "X" "" = none :=
  C9_train_empty_faults ["X"] M0 (fun _ _ => false) "X" (by decide)

/-!
## C10 — `inputTensor` is total; foreign characters land in the EOS slot
-/

/-- C10: `inputTensor` never raises: for every string it returns the
matrix of one-hot rows at `pyIdx`, and for a character outside the
alphabet `all_letters.find` returns `-1`, so the bit is written at the
last position (`n_letters - 1`, the EOS slot) via Python negative
indexing. -/
theorem C10_inputTensor_total :
    (∀ line : String, inputTensor line = some (inputRows line)) ∧
    (∀ ch : Char, ch ∉ all_letters →
      strFind all_letters ch = -1 ∧ pyIdx ch = n_letters - 1) := by
  refine ⟨inputTensor_eq, fun ch h => ⟨strFind_of_not_mem h, ?_⟩⟩
  simp [pyIdx, h]

/-- C10 witness: the question mark is not in the alphabet and is encoded
at the EOS slot. -/
theorem C10_witness :
    strFind all_letters '?' = -1 ∧ pyIdx '?' = n_letters - 1 :=
  C10_inputTensor_total.2 '?' (by decide)

/-!
## C8 — encoding a string with out-of-alphabet symbols does NOT fault

The claim asserts that `inputTensor`/`targetTensor` propagate an uncaught
fault on such strings. They do not: `inputTensor` silently one-hot-encodes
the foreign character at the EOS slot and `targetTensor` records `-1`.
The fault only surfaces later, in the training step's loss lookup, when
the foreign symbol occupies a target position (string position ≥ 2).
-/

/-- C8 counterexample: `"a?"` contains a symbol outside the alphabet, yet
both encoders succeed — the string is silently accepted by the encoding. -/
theorem C8_counterexample :
    inputTensor "a?" =
      some [oneHotQ n_letters 0, oneHotQ n_letters (n_letters - 1)] ∧
    targetTensor "a?" = [-1, 58] := by
  constructor
  · rw [inputTensor_eq]
    decide
  · decide

/-- C8 (amended): encoding is total on strings with out-of-alphabet
symbols, and when such a symbol occurs at a position ≥ 2 (index ≥ 1) the
fault surfaces in the training step: its target entry is `-1`, which the
NLL loss lookup rejects. -/
theorem C8_encode_total_train_faults (cats : List String) (M : RNNmod)
    (masks : Nat → Nat → Bool) (cat line : String) (i : Nat) (ch : Char)
    (hc : cat ∈ cats) (hi : 1 ≤ i) (hch : line.data[i]? = some ch)
    (hbad : ch ∉ all_letters) :
    (inputTensor line).isSome ∧
      trainOnExample cats M masks cat line = none := by
  constructor
  · rw [inputTensor_eq]; rfl
  · rw [trainOnExample, categoryTensor_of_mem hc, inputTensor_eq]
    have hneg : ∃ t ∈ targetTensor line, t < 0 := by
      refine ⟨strFind all_letters ch, ?_, by
        rw [strFind_of_not_mem hbad]; decide⟩
      unfold targetTensor
      apply List.mem_append_left
      apply List.mem_map_of_mem
      have : (line.data.drop 1)[i - 1]? = some ch := by
        rw [List.getElem?_drop]
        have : 1 + (i - 1) = i := by omega
        rw [this, hch]
      exact List.getElem?_mem this
    show Option.map _
      (unroll M masks (oneHotQ cats.length (cats.indexOf cat))
        (inputRows line) 0 (initHidden M) (targetTensor line)) = none
    rw [unroll_none_of_neg_target M masks _ _ _ _ _ hneg]
    rfl

/-- C8 amended-claim witness at `"a?"`. -/
theorem C8_witness :
    (inputTensor "a?").isSome ∧
      trainOnExample ["X"] M0 (fun _ _ => false) "X" "a?" = none :=
  C8_encode_total_train_faults ["X"] M0 (fun _ _ => false) "X" "a?" 1 '?'
    (by decide) (by decide) (by decide) (by decide)

/-!
## C2 — one cell step computes exactly the documented composition
-/

/-- C2: one step of the recurrent cell returns exactly the pair
`(log_softmax(dropout(o2o(concat(i2o(z), i2h(z))))), i2h(z))` with
`z = concat(cat, input, hidden)`. The step is a pure function of its
inputs, the weights and the explicit dropout mask (the only randomness it
consumes); it has no other effects by construction of the embedding. -/
theorem C2_forward_composition (M : RNNmod) (training : Bool)
    (mask : Nat → Bool) (c x h : List ℚ) :
    forward M training mask c x h =
      (M.softmax (dropoutF M.p training mask
        (affine M.o2o
          (affine M.i2o (c ++ x ++ h) ++ affine M.i2h (c ++ x ++ h)))),
       affine M.i2h (c ++ x ++ h)) := rfl

/-!
## C3 — the reported training loss is the mean per-symbol NLL
-/

theorem affine_length (layer : List (List ℚ) × List ℚ) (v : List ℚ) :
    (affine layer v).length = min layer.1.length layer.2.length := by
  simp [affine]

theorem dropoutGo_length (p : ℚ) (mask : Nat → Bool) :
    ∀ (v : List ℚ) (i : Nat), (dropoutGo p mask i v).length = v.length := by
  intro v
  induction v with
  | nil => intro i; rfl
  | cons x xs ih => intro i; simp [dropoutGo, ih]

theorem dropoutF_length (p : ℚ) (tr : Bool) (mask : Nat → Bool)
    (v : List ℚ) : (dropoutF p tr mask v).length = v.length := by
  cases tr <;> simp [dropoutF, dropoutGo_length]

theorem softmax_length {f : List ℚ → List ℚ} (hsm : SoftmaxOK f)
    (v : List ℚ) : (f v).length = v.length := by
  obtain ⟨c, hc⟩ := hsm v
  simp [hc]

/-- Under the notebook's layer shapes, every cell output has `n_letters`
entries. -/
theorem forward_out_length {M : RNNmod} (hsm : SoftmaxOK M.softmax)
    (hws : WellShaped M) (tr : Bool) (mask : Nat → Bool)
    (c x h : List ℚ) :
    (forward M tr mask c x h).1.length = n_letters := by
  show (M.softmax _).length = n_letters
  rw [softmax_length hsm, dropoutF_length, affine_length, hws.1, hws.2]
  exact Nat.min_self _

/-- The unroll of `train` agrees with the spec-side formula: it succeeds
and returns the sum of the per-position negative log-likelihoods. -/
theorem unroll_eq_sum {M : RNNmod} (hsm : SoftmaxOK M.softmax)
    (hws : WellShaped M) (masks : Nat → Nat → Bool) (cv : List ℚ)
    (inp : List (List ℚ)) :
    ∀ (ts : List Int) (xs : List (List ℚ)) (k : Nat) (hid : List ℚ),
      ts.length = xs.length →
      (∀ j, j < ts.length → inp[k + j]? = xs[j]?) →
      (∀ t ∈ ts, 0 ≤ t ∧ t.toNat < n_letters) →
      unroll M masks cv inp k hid ts =
        some ((List.zipWith (fun o (t : Int) => -(o.getD t.toNat 0))
          (cellOutputs M masks cv k hid xs) ts).sum) := by
  intro ts
  induction ts with
  | nil =>
    intro xs k hid hlen _ _
    have : xs = [] := by
      cases xs with
      | nil => rfl
      | cons a as => simp at hlen
    subst this
    simp [unroll, cellOutputs]
  | cons t0 ts ih =>
    intro xs k hid hlen hj hrange
    cases xs with
    | nil => simp at hlen
    | cons x0 xs =>
      have hx0 : inp[k]? = some x0 := by
        have := hj 0 (by simp)
        simpa using this
      have hget : inp.get? k = some x0 := by
        rw [List.get?_eq_getElem?, hx0]
      rw [unroll, hget]
      have hr := hrange t0 (List.mem_cons_self _ _)
      have hlt : t0.toNat <
          (forward M rnnTrainingMode (masks k) cv x0 hid).1.length := by
        rw [forward_out_length hsm hws]
        exact hr.2
      have hnll : nllLoss (forward M rnnTrainingMode (masks k) cv x0 hid).1 t0
          = some (-(forward M rnnTrainingMode (masks k) cv x0 hid).1.getD
              t0.toNat 0) := by
        rw [nllLoss, dif_pos ⟨hr.1, hlt⟩]
        congr 1
        rw [List.getD_eq_getElem?_getD, List.getElem?_eq_getElem hlt]
        rfl
      have hrec := ih xs (k + 1)
        (forward M rnnTrainingMode (masks k) cv x0 hid).2
        (by simpa using hlen)
        (by
          intro j hjlt
          have := hj (j + 1) (by simpa using Nat.succ_lt_succ hjlt)
          have harith : k + (j + 1) = k + 1 + j := by omega
          rw [harith] at this
          simpa using this)
        (fun t ht => hrange t (List.mem_cons_of_mem _ ht))
      simp only [hnll, hrec, cellOutputs, List.zipWith_cons_cons,
        List.sum_cons]
      rfl

theorem data_ne_nil {line : String} (h : line ≠ "") : line.data ≠ [] := by
  intro hcon
  apply h
  cases line
  simp at hcon
  simp [hcon]

/-- All entries of `targetTensor` for an in-alphabet string are valid class
indices for an `n_letters`-wide output. -/
theorem targetTensor_in_range (line : String)
    (halpha : ∀ ch ∈ line.data, ch ∈ all_letters) :
    ∀ t ∈ targetTensor line, 0 ≤ t ∧ t.toNat < n_letters := by
  intro t ht
  rcases List.mem_append.mp ht with hl | hr
  · rcases List.mem_map.mp hl with ⟨ch, hch, rfl⟩
    have hmem : ch ∈ all_letters := halpha ch (List.drop_subset 1 _ hch)
    have hidx : all_letters.indexOf ch < all_letters.length :=
      List.indexOf_lt_length.mpr hmem
    rw [strFind, if_pos hmem]
    have h58 : all_letters.indexOf ch < 58 := by
      rw [← all_letters_length]
      exact hidx
    have h59 : n_letters = 59 := by decide
    refine ⟨Int.ofNat_nonneg _, ?_⟩
    omega
  · have ht1 : t = (n_letters : Int) - 1 := by simpa using hr
    rw [ht1]
    decide

/-- C3: one training step on an in-alphabet, nonempty example reports
exactly the sum over all positions of the negative log-likelihood between
the cell's log-probability output and the target index at that position,
divided by the number of target entries. -/
theorem C3_train_reports_mean_loss (cats : List String) (M : RNNmod)
    (masks : Nat → Nat → Bool) (cat line : String)
    (hsm : SoftmaxOK M.softmax) (hws : WellShaped M) (hc : cat ∈ cats)
    (hne : line ≠ "") (halpha : ∀ ch ∈ line.data, ch ∈ all_letters) :
    ∃ cv, categoryTensor cats cat = some cv ∧
      trainOnExample cats M masks cat line =
        some (lossSpec M masks cv line / ((targetTensor line).length : ℚ)) := by
  refine ⟨_, categoryTensor_of_mem hc, ?_⟩
  rw [trainOnExample, categoryTensor_of_mem hc, inputTensor_eq]
  show Option.map _
    (unroll M masks (oneHotQ cats.length (cats.indexOf cat))
      (inputRows line) 0 (initHidden M) (targetTensor line)) = _
  have hlen : (targetTensor line).length = (inputRows line).length := by
    have hpos : 0 < line.data.length :=
      List.length_pos.mpr (data_ne_nil hne)
    rw [targetTensor_length]
    have : (inputRows line).length = line.data.length := by simp [inputRows]
    rw [this]
    omega
  have hj : ∀ j, j < (targetTensor line).length →
      (inputRows line)[0 + j]? = (inputRows line)[j]? := by
    intro j _
    rw [Nat.zero_add]
  rw [unroll_eq_sum hsm hws masks _ (inputRows line) (targetTensor line)
    (inputRows line) 0 (initHidden M) hlen hj
    (targetTensor_in_range line halpha)]
  rfl

/-- C3 witness at a concrete module and example. -/
theorem C3_witness :
    ∃ cv, categoryTensor ["X"] "X" = some cv ∧
      trainOnExample ["X"] M0 (fun _ _ => false) "X" "ab" =
        some (lossSpec M0 (fun _ _ => false) cv "ab" /
          ((targetTensor "ab").length : ℚ)) :=
  C3_train_reports_mean_loss ["X"] M0 (fun _ _ => false) "X" "ab"
    SoftmaxOK_id ⟨by simp [M0], by simp [M0]⟩ (by decide) (by decide)
    (by decide)

/-!
## C4 — sampling terminates within `max_length` and emits only alphabet
characters
-/

/-- The decoding loop always succeeds, extends the buffer by at most its
fuel, and every appended character is an alphabet letter (in particular the
EOS marker, which has no character, is never appended). -/
theorem sampleLoop_props {M : RNNmod} (hsm : SoftmaxOK M.softmax)
    (hws : WellShaped M) (masks : Nat → Nat → Bool) (expF : ℚ → ℚ)
    (draws : Nat → List ℚ → Nat)
    (hd : ∀ k d, 0 < d.length → draws k d < d.length) (cv : List ℚ) :
    ∀ (fuel k : Nat) (cur : List (List ℚ)) (hid : List ℚ)
      (acc : List Char), (∃ row, cur.get? 0 = some row) →
      ∃ rest, sampleLoop M masks expF draws cv fuel k cur hid acc =
          some (acc ++ rest) ∧ rest.length ≤ fuel ∧
          ∀ ch ∈ rest, ch ∈ all_letters := by
  intro fuel
  induction fuel with
  | zero =>
    intro k cur hid acc _
    exact ⟨[], by simp [sampleLoop], by simp, by simp⟩
  | succ fuel ih =>
    intro k cur hid acc hcur
    obtain ⟨row, hrow⟩ := hcur
    have hdistlen :
        ((forward M rnnTrainingMode (masks k) cv row hid).1.map expF).length
          = n_letters := by
      rw [List.length_map, forward_out_length hsm hws]
    have htopi :
        draws k ((forward M rnnTrainingMode (masks k) cv row hid).1.map expF)
          < n_letters := by
      rw [← hdistlen]
      apply hd
      rw [hdistlen]
      decide
    by_cases heos :
        draws k ((forward M rnnTrainingMode (masks k) cv row hid).1.map expF)
          = n_letters - 1
    · refine ⟨[], ?_, by simp, by simp⟩
      rw [sampleLoop, hrow]
      simp [heos]
    · have hlt58 :
          draws k ((forward M rnnTrainingMode (masks k) cv row hid).1.map expF)
            < all_letters.length := by
        have h59 : n_letters = 59 := by decide
        have h58 : all_letters.length = 58 := all_letters_length
        omega
      set topi :=
        draws k ((forward M rnnTrainingMode (masks k) cv row hid).1.map expF)
        with htopi_def
      have hlet : all_letters.get? topi = some (all_letters.get ⟨topi, hlt58⟩) := by
        rw [List.get?_eq_getElem?, List.getElem?_eq_getElem hlt58]
        rfl
      have hletmem : all_letters.get ⟨topi, hlt58⟩ ∈ all_letters :=
        List.get_mem _ _ hlt58
      have hinput :
          inputTensor (String.mk [all_letters.get ⟨topi, hlt58⟩]) =
            some [oneHotQ n_letters (pyIdx (all_letters.get ⟨topi, hlt58⟩))] :=
        inputTensor_eq _
      obtain ⟨rest, hres, hlen, hmem⟩ := ih (k + 1)
        [oneHotQ n_letters (pyIdx (all_letters.get ⟨topi, hlt58⟩))]
        (forward M rnnTrainingMode (masks k) cv row hid).2
        (acc ++ [all_letters.get ⟨topi, hlt58⟩]) ⟨_, rfl⟩
      refine ⟨all_letters.get ⟨topi, hlt58⟩ :: rest, ?_, ?_, ?_⟩
      · rw [sampleLoop, hrow]
        simp only [← htopi_def, if_neg heos, hlet, hinput]
        rw [hres]
        simp
      · simpa using Nat.succ_le_succ hlen
      · intro ch hch
        rcases List.mem_cons.mp hch with rfl | h
        · exact hletmem
        · exact hmem ch h

/-- C4: for a known category and an alphabet start symbol, sampling always
terminates with a string: the loop runs at most `max_length` cell steps,
stops immediately when the drawn index is the EOS index, and the returned
buffer is the seed followed by at most `max_length` alphabet letters — the
end marker (which has no character form) is never in the buffer. -/
theorem C4_sample_terminates (cats : List String) (M : RNNmod)
    (masks : Nat → Nat → Bool) (expF : ℚ → ℚ) (draws : Nat → List ℚ → Nat)
    (cat : String) (start : Char) (hsm : SoftmaxOK M.softmax)
    (hws : WellShaped M) (hd : ∀ k d, 0 < d.length → draws k d < d.length)
    (hc : cat ∈ cats) (hstart : start ∈ all_letters) :
    (∃ rest, sample cats M masks expF draws cat start =
        some (start :: rest) ∧ rest.length ≤ max_length ∧
        ∀ ch ∈ start :: rest, ch ∈ all_letters) ∧
    (∀ (cv : List ℚ) (fuel k : Nat) (cur : List (List ℚ)) (hid : List ℚ)
        (acc : List Char) (row : List ℚ), cur.get? 0 = some row →
      draws k ((forward M rnnTrainingMode (masks k) cv row hid).1.map expF) =
        n_letters - 1 →
      sampleLoop M masks expF draws cv (fuel + 1) k cur hid acc = some acc) := by
  constructor
  · obtain ⟨rest, hres, hlen, hmem⟩ :=
      sampleLoop_props hsm hws masks expF draws hd
        (oneHotQ cats.length (cats.indexOf cat)) max_length 0
        [oneHotQ n_letters (pyIdx start)] (initHidden M) [start] ⟨_, rfl⟩
    refine ⟨rest, ?_, hlen, ?_⟩
    · rw [sample, categoryTensor_of_mem hc, inputTensor_eq]
      show sampleLoop M masks expF draws _ max_length 0
        (inputRows (String.mk [start])) (initHidden M) [start] = _
      rw [show inputRows (String.mk [start]) =
        [oneHotQ n_letters (pyIdx start)] from rfl]
      rw [hres]
      rfl
    · intro ch hch
      rcases List.mem_cons.mp hch with rfl | h
      · exact hstart
      · exact hmem ch h
  · intro cv fuel k cur hid acc row hrow heos
    rw [sampleLoop, hrow]
    simp [heos]

/-- C4 witness at a concrete module, category list and draw stream. -/
theorem C4_witness :
    ∃ rest, sample ["X"] M0 (fun _ _ => false) id (fun _ _ => 0) "X" 'a' =
        some ('a' :: rest) ∧ rest.length ≤ max_length ∧
        ∀ ch ∈ 'a' :: rest, ch ∈ all_letters :=
  (C4_sample_terminates ["X"] M0 (fun _ _ => false) id (fun _ _ => 0)
    "X" 'a' SoftmaxOK_id ⟨by simp [M0], by simp [M0]⟩
    (fun _ _ h => h) (by decide) (by decide)).1


/-!
## C6 — dropout in the sampler

`nn.Dropout` is the identity in eval mode, but the notebook never calls
`rnn.eval()`: the module stays in training mode (`rnnTrainingMode = true`),
so the sampler's `forward` calls run dropout on the pre-log-softmax output
(with the notebook's `p = 0.1`, even an all-keep mask rescales it by
`10/9`).
-/

/-- C6: dropout would be skipped only in eval mode — there the cell applies
no dropout at all before the log-softmax — but the module is still in
training mode when the sampler invokes the cell (`rnnTrainingMode = true`,
since `rnn.eval()` is never called), and the dropout it then applies (with
the notebook's `p = 0.1`, here with a mask that drops nothing) already
changes the projected output fed to the log-softmax. -/
theorem C6_dropout_active_in_sampler :
    rnnTrainingMode = true ∧
    (∀ (M : RNNmod) (mask : Nat → Bool) (c x h : List ℚ),
      forward M false mask c x h =
        (M.softmax (affine M.o2o (affine M.i2o (c ++ x ++ h) ++
          affine M.i2h (c ++ x ++ h))),
         affine M.i2h (c ++ x ++ h))) ∧
    dropoutF (1 / 10) rnnTrainingMode (fun _ => false) [1] ≠ [1] := by
  refine ⟨rfl, fun M mask c x h => rfl, ?_⟩
  have hval : dropoutF (1 / 10) rnnTrainingMode (fun _ => false) [1] =
      [1 / (1 - 1 / 10)] := by
    show dropoutGo (1 / 10) (fun _ => false) 0 [1] = [1 / (1 - 1 / 10)]
    simp [dropoutGo]
  rw [hval]
  simp only [ne_eq, List.cons.injEq, and_true]
  norm_num

/-!
## C7 — greedy decoding is not deterministic across runs

The greedy variant replaces the multinomial draw by the argmax of the
log-probabilities, but the cell still runs dropout (training mode is never
left), so the decoded string depends on the random dropout masks drawn
from the global RNG: two runs, which consume different masks, can produce
different strings.
-/

theorem argmaxAux_shift (c : ℚ) :
    ∀ (xs : List ℚ) (i bi : Nat) (bv : ℚ),
      argmaxAux i bi (bv - c) (xs.map (fun x => x - c)) =
        argmaxAux i bi bv xs := by
  intro xs
  induction xs with
  | nil => intro i bi bv; rfl
  | cons x xs ih =>
    intro i bi bv
    rw [List.map_cons, argmaxAux, argmaxAux]
    by_cases hbx : bv < x
    · rw [if_pos (sub_lt_sub_right hbx c), if_pos hbx, ih]
    · rw [if_neg (fun hcon => hbx (by linarith)), if_neg hbx, ih]

/-- A uniform shift of a vector does not move its first-maximum index. -/
theorem argmax_shift (c : ℚ) (v : List ℚ) :
    argmaxIdx (v.map (fun x => x - c)) = argmaxIdx v := by
  cases v with
  | nil => rfl
  | cons x xs =>
    rw [List.map_cons, argmaxIdx, argmaxIdx]
    exact argmaxAux_shift c xs 1 0 x

/-- `log_softmax` preserves the argmax (it is a uniform shift). -/
theorem argmax_softmax {f : List ℚ → List ℚ} (hf : SoftmaxOK f)
    (v : List ℚ) : argmaxIdx (f v) = argmaxIdx v := by
  obtain ⟨c, hc⟩ := hf v
  rw [hc, argmax_shift]

theorem argmaxAux_no_improve :
    ∀ (xs : List ℚ) (i bi : Nat) (bv : ℚ),
      (∀ y ∈ xs, ¬ bv < y) → argmaxAux i bi bv xs = bi := by
  intro xs
  induction xs with
  | nil => intro i bi bv _; rfl
  | cons x xs ih =>
    intro i bi bv h
    rw [argmaxAux, if_neg (h x (List.mem_cons_self _ _))]
    exact ih _ _ _ (fun y hy => h y (List.mem_cons_of_mem _ hy))

/-- When the head dominates the tail, the first maximum sits at index 0. -/
theorem argmaxIdx_head (x : ℚ) (xs : List ℚ) (h : ∀ y ∈ xs, ¬ x < y) :
    argmaxIdx (x :: xs) = 0 := by
  rw [argmaxIdx]
  exact argmaxAux_no_improve xs 1 0 x h

theorem argmaxAux_zeros_concat {a : ℚ} (ha : 0 < a) :
    ∀ (n i bi : Nat),
      argmaxAux i bi 0 (List.replicate n (0 : ℚ) ++ [a]) = i + n := by
  intro n
  induction n with
  | zero =>
    intro i bi
    rw [List.replicate, List.nil_append, argmaxAux, if_pos ha]
    rfl
  | succ n ih =>
    intro i bi
    rw [List.replicate_succ, List.cons_append, argmaxAux, if_neg (lt_irrefl 0),
      ih]
    omega

/-- A block of zeros followed by one positive entry has its first maximum
at that entry. -/
theorem argmaxIdx_zeros_concat (n : Nat) (a : ℚ) (ha : 0 < a) :
    argmaxIdx (List.replicate n (0 : ℚ) ++ [a]) = n := by
  cases n with
  | zero => rw [List.replicate, List.nil_append, argmaxIdx]; rfl
  | succ n =>
    rw [List.replicate_succ, List.cons_append, argmaxIdx,
      argmaxAux_zeros_concat ha]
    omega

theorem dropoutGo_of_false {p : ℚ} {mask : Nat → Bool}
    (hm : ∀ i, mask i = false) :
    ∀ (v : List ℚ) (i : Nat),
      dropoutGo p mask i v = v.map (fun x => x / (1 - p)) := by
  intro v
  induction v with
  | nil => intro i; rfl
  | cons x xs ih =>
    intro i
    rw [dropoutGo, hm i, List.map_cons, ih]
    rfl

theorem dropoutGo_append (p : ℚ) (mask : Nat → Bool) :
    ∀ (as bs : List ℚ) (i : Nat),
      dropoutGo p mask i (as ++ bs) =
        dropoutGo p mask i as ++ dropoutGo p mask (i + as.length) bs := by
  intro as
  induction as with
  | nil => intro bs i; simp [dropoutGo]
  | cons a as ih =>
    intro bs i
    rw [List.cons_append, dropoutGo, dropoutGo, ih, List.cons_append]
    have : i + 1 + as.length = i + (as.length + 1) := by omega
    rw [this]
    rfl

theorem dropoutGo_zeros (p : ℚ) (mask : Nat → Bool) :
    ∀ (n i : Nat),
      dropoutGo p mask i (List.replicate n (0 : ℚ)) =
        List.replicate n (0 : ℚ) := by
  intro n
  induction n with
  | zero => intro i; rfl
  | succ n ih =>
    intro i
    rw [List.replicate_succ, dropoutGo, ih, zero_div]
    cases hm : mask i <;> simp

/-- Concrete `o2o` bias used to separate two dropout masks: coordinate 0
holds `2`, the EOS coordinate 58 holds `1`, the rest are `0`. -/
def biasV : List ℚ := 2 :: (List.replicate 57 0 ++ [1])

/-- Concrete weights for the greedy-divergence runs: zero matrices, bias
`biasV` on the `o2o` layer, the notebook's `p = 0.1`, and an arbitrary
log-softmax component `f`. -/
def M7 (f : List ℚ → List ℚ) : RNNmod :=
  { catSize := 1, inputSize := n_letters, hiddenSize := 1,
    outputSize := n_letters,
    i2h := ([], []), i2o := ([], []),
    o2o := (List.replicate n_letters [], biasV),
    p := 1 / 10, softmax := f }

/-- Mask stream A: no coordinate is ever dropped. -/
def masksKeep : Nat → Nat → Bool := fun _ _ => false

/-- Mask stream B: every step drops all coordinates except the EOS one. -/
def masksDrop : Nat → Nat → Bool := fun _ i => i != 58

theorem zipWith_add_zero (b : List ℚ) :
    List.zipWith (· + ·) (List.replicate b.length (0 : ℚ)) b = b := by
  induction b with
  | nil => rfl
  | cons x xs ih => rw [List.length_cons, List.replicate_succ,
      List.zipWith_cons_cons, zero_add, ih]

theorem affine_zero_rows (n : Nat) (b v : List ℚ) (hn : n = b.length) :
    affine (List.replicate n [], b) v = b := by
  subst hn
  show List.zipWith (· + ·)
    ((List.replicate b.length ([] : List ℚ)).map
      (fun r => (List.zipWith (· * ·) r v).sum)) b = b
  rw [List.map_replicate]
  exact zipWith_add_zero b

theorem forward_M7 (f : List ℚ → List ℚ) (mask : Nat → Bool)
    (c x h : List ℚ) :
    forward (M7 f) rnnTrainingMode mask c x h =
      (f (dropoutF (1 / 10) true mask biasV), []) := by
  have haff : affine (M7 f).o2o
      (affine (M7 f).i2o (c ++ x ++ h) ++ affine (M7 f).i2h (c ++ x ++ h))
        = biasV := by
    have h1 : affine (M7 f).i2o (c ++ x ++ h) = [] := rfl
    have h2 : affine (M7 f).i2h (c ++ x ++ h) = [] := rfl
    rw [h1, h2]
    exact affine_zero_rows n_letters biasV ([] ++ []) (by
      rw [show n_letters = 59 from by decide]
      simp [biasV])
  show ((M7 f).softmax (dropoutF (M7 f).p rnnTrainingMode mask
      (affine (M7 f).o2o (affine (M7 f).i2o (c ++ x ++ h) ++
        affine (M7 f).i2h (c ++ x ++ h)))),
    affine (M7 f).i2h (c ++ x ++ h)) =
      (f (dropoutF (1 / 10) true mask biasV), [])
  rw [haff]
  rfl

theorem greedyLoop_step_stop {M : RNNmod} {masks : Nat → Nat → Bool}
    {cv : List ℚ} {fuel k : Nat} {cur : List (List ℚ)} {hid : List ℚ}
    {acc : List Char} {row : List ℚ} (hrow : cur.get? 0 = some row)
    (heos : argmaxIdx (forward M rnnTrainingMode (masks k) cv row hid).1 =
      n_letters - 1) :
    greedyLoop M masks cv (fuel + 1) k cur hid acc = some acc := by
  rw [greedyLoop, hrow]
  simp [heos]

theorem greedyLoop_step_cont {M : RNNmod} {masks : Nat → Nat → Bool}
    {cv : List ℚ} {fuel k : Nat} {cur : List (List ℚ)} {hid : List ℚ}
    {acc : List Char} {row : List ℚ} {letter : Char}
    (hrow : cur.get? 0 = some row)
    (hne : argmaxIdx (forward M rnnTrainingMode (masks k) cv row hid).1 ≠
      n_letters - 1)
    (hlet : all_letters[argmaxIdx
      (forward M rnnTrainingMode (masks k) cv row hid).1]? = some letter) :
    greedyLoop M masks cv (fuel + 1) k cur hid acc =
      greedyLoop M masks cv fuel (k + 1)
        (inputRows (String.mk [letter]))
        (forward M rnnTrainingMode (masks k) cv row hid).2
        (acc ++ [letter]) := by
  rw [greedyLoop, hrow]
  simp [hne, hlet, inputTensor_eq]

/-- When every step picks the same index `j` (an alphabet letter, not the
EOS index), the greedy loop runs its full fuel and appends that letter at
every step. -/
theorem greedyLoop_const {M : RNNmod} {masks : Nat → Nat → Bool}
    {cv : List ℚ} {j : Nat} {letter : Char}
    (hj : ∀ (k : Nat) (row hid : List ℚ),
      argmaxIdx (forward M rnnTrainingMode (masks k) cv row hid).1 = j)
    (hne : j ≠ n_letters - 1) (hlet : all_letters[j]? = some letter) :
    ∀ (fuel k : Nat) (cur : List (List ℚ)) (hid : List ℚ)
      (acc : List Char) (row : List ℚ), cur.get? 0 = some row →
      greedyLoop M masks cv fuel k cur hid acc =
        some (acc ++ List.replicate fuel letter) := by
  intro fuel
  induction fuel with
  | zero =>
    intro k cur hid acc row _
    simp [greedyLoop]
  | succ fuel ih =>
    intro k cur hid acc row hrow
    rw [greedyLoop_step_cont hrow (by rw [hj]; exact hne)
      (by rw [hj]; exact hlet)]
    rw [ih (k + 1) (inputRows (String.mk [letter]))
      (forward M rnnTrainingMode (masks k) cv row hid).2 (acc ++ [letter])
      (oneHotQ n_letters (pyIdx letter)) rfl]
    rw [List.replicate_succ, List.append_assoc]
    rfl

theorem greedySample_eq (cats : List String) (M : RNNmod)
    (masks : Nat → Nat → Bool) (cat : String) (start : Char) (cv : List ℚ)
    (hcv : categoryTensor cats cat = some cv) :
    greedySample cats M masks cat start =
      greedyLoop M masks cv max_length 0 (inputRows (String.mk [start]))
        (initHidden M) [start] := by
  unfold greedySample
  rw [hcv, inputTensor_eq]

/-- Greedy run with mask stream A: every step keeps all coordinates, the
argmax is coordinate 0 (the letter `a`), and the loop runs to the length
cap. -/
theorem greedyRunKeep (f : List ℚ → List ℚ) (hf : SoftmaxOK f) :
    greedySample ["X"] (M7 f) masksKeep "X" 'a' =
      some ('a' :: List.replicate max_length 'a') := by
  rw [greedySample_eq _ _ _ _ _ _ (categoryTensor_of_mem (by decide))]
  have hj : ∀ (k : Nat) (c row hid : List ℚ),
      argmaxIdx (forward (M7 f) rnnTrainingMode (masksKeep k) c row hid).1
        = 0 := by
    intro k c row hid
    rw [forward_M7]
    show argmaxIdx (f (dropoutF (1 / 10) true (masksKeep k) biasV)) = 0
    rw [argmax_softmax hf]
    have hvA : dropoutF (1 / 10) true (masksKeep k) biasV =
        2 / (1 - 1 / 10) ::
          (List.replicate 57 0 ++ [1 / (1 - 1 / 10)]) := by
      show dropoutGo (1 / 10) (masksKeep k) 0 biasV = _
      rw [@dropoutGo_of_false (1 / 10) (masksKeep k) (fun i => rfl) biasV 0]
      simp [biasV, zero_div]
    rw [hvA]
    apply argmaxIdx_head
    intro y hy
    rcases List.mem_append.mp hy with hy1 | hy2
    · rw [List.eq_of_mem_replicate hy1]
      norm_num
    · rw [List.mem_singleton.mp hy2]
      norm_num
  have hrow0 : (inputRows (String.mk ['a'])).get? 0 =
      some (oneHotQ n_letters (pyIdx 'a')) := rfl
  have hlet0 : all_letters[0]? = some 'a' := by decide
  rw [greedyLoop_const (fun k row hid => hj k _ row hid) (by decide) hlet0
    max_length 0 _ _ ['a'] _ hrow0]
  rfl

/-- Greedy run with mask stream B: the very first step drops every
coordinate except the EOS one, the argmax is the EOS index, and the loop
stops at once with just the seed. -/
theorem greedyRunDrop (f : List ℚ → List ℚ) (hf : SoftmaxOK f) :
    greedySample ["X"] (M7 f) masksDrop "X" 'a' = some ['a'] := by
  rw [greedySample_eq _ _ _ _ _ _ (categoryTensor_of_mem (by decide))]
  rw [show max_length = 19 + 1 from rfl]
  refine greedyLoop_step_stop
    (show (inputRows (String.mk ['a'])).get? 0 =
      some (oneHotQ n_letters (pyIdx 'a')) from rfl) ?_
  rw [forward_M7]
  show argmaxIdx (f (dropoutF (1 / 10) true (masksDrop 0) biasV)) =
    n_letters - 1
  rw [argmax_softmax hf]
  have hvB : dropoutF (1 / 10) true (masksDrop 0) biasV =
      List.replicate 58 0 ++ [1 / (1 - 1 / 10)] := by
    show dropoutGo (1 / 10) (masksDrop 0) 0
      (2 :: (List.replicate 57 0 ++ [1])) = _
    rw [dropoutGo, dropoutGo_append, dropoutGo_zeros]
    rw [show List.replicate 58 (0 : ℚ) = 0 :: List.replicate 57 0 from rfl]
    simp [masksDrop, dropoutGo]
  rw [hvB, argmaxIdx_zeros_concat 58 _ (by norm_num)]
  decide

/-- C7: greedy decoding is not deterministic on the code as written: the
module never leaves training mode, so the cell's output depends on the
random dropout masks, and two greedy runs consuming different mask
streams produce different strings (here a full-length run versus an
immediate EOS stop), for any log-softmax component. -/
theorem C7_greedy_nondeterministic :
    ∀ f : List ℚ → List ℚ, SoftmaxOK f →
      greedySample ["X"] (M7 f) masksKeep "X" 'a' ≠
        greedySample ["X"] (M7 f) masksDrop "X" 'a' := by
  intro f hf
  rw [greedyRunKeep f hf, greedyRunDrop f hf]
  intro hcon
  have hlen := congrArg (fun o : Option (List Char) => (o.getD []).length)
    hcon
  simp [max_length] at hlen

/-- C7 witness: the divergence at the identity shift. -/
theorem C7_witness :
    greedySample ["X"] (M7 id) masksKeep "X" 'a' ≠
      greedySample ["X"] (M7 id) masksDrop "X" 'a' :=
  C7_greedy_nondeterministic id SoftmaxOK_id
